import Mathlib

/-
Verification of the rustracer intersection-and-shading engine.

Shallow embedding conventions:
* `f64` scalars that the verified claims exercise are modelled as exact
  rationals (`ℚ`); the claims under study are about branch structure,
  list bookkeeping and algebraic composition, not about rounding.
* Shapes referenced from intersection records are modelled by the data the
  algorithms read from them: a stable integer id and the material's
  refractive index.
* Rust `panic!` is modelled as `Except.error`.
-/

namespace RT

/-- The data `prepare_computations` and `hit` read from a shape reference:
its process-unique id and its material's refractive index
(`material().refractive_index`). The refractive-index field of `Material`
is modelled from the spec: the snapshot's `material.rs` predates the
refraction fields that `world.rs` and `intersection.rs` read. -/
structure ShapeRef where
  id : Nat
  refractiveIndex : ℚ
deriving DecidableEq, Repr

/-- `Intersection` (intersection.rs): parameter `t` along the ray and the
hit shape. The optional barycentric (u, v) pair plays no role in the
claims settled here. -/
structure Ixn where
  t : ℚ
  object : ShapeRef
deriving DecidableEq, Repr

/-- One step of Rust's `Iterator::min_by` fold over intersections ordered
by `t`: the accumulator is replaced only on strict decrease, so the first
minimal element wins. -/
def hitMin (acc : Option Ixn) (x : Ixn) : Option Ixn :=
  match acc with
  | none => some x
  | some a => if x.t < a.t then some x else some a

/-- `Intersection::hit` (intersection.rs:84-89): filter to `t >= 0`, then
take the minimum by `t`. -/
def hit (l : List Ixn) : Option Ixn :=
  (l.filter fun i => 0 ≤ i.t).foldl hitMin none

lemma foldl_hitMin_some (l : List Ixn) (a : Ixn) :
    ∃ b, l.foldl hitMin (some a) = some b ∧ (b = a ∨ b ∈ l) ∧ b.t ≤ a.t ∧
      ∀ j ∈ l, b.t ≤ j.t := by
  induction l generalizing a with
  | nil => exact ⟨a, rfl, Or.inl rfl, le_refl _, by simp⟩
  | cons x l ih =>
    by_cases hx : x.t < a.t
    · obtain ⟨b, hb, hmem, hle, hmin⟩ := ih x
      refine ⟨b, ?_, ?_, ?_, ?_⟩
      · simpa [hitMin, hx] using hb
      · rcases hmem with h | h
        · exact Or.inr (by simp [h])
        · exact Or.inr (by simp [h])
      · exact hle.trans hx.le
      · intro j hj
        rcases List.mem_cons.mp hj with h | h
        · exact h ▸ hle
        · exact hmin j h
    · obtain ⟨b, hb, hmem, hle, hmin⟩ := ih a
      refine ⟨b, ?_, ?_, hle, ?_⟩
      · simpa [hitMin, hx] using hb
      · rcases hmem with h | h
        · exact Or.inl h
        · exact Or.inr (by simp [h])
      · intro j hj
        rcases List.mem_cons.mp hj with h | h
        · exact h ▸ hle.trans (not_lt.mp hx)
        · exact hmin j h

lemma foldl_hitMin_none_eq_none (l : List Ixn) :
    l.foldl hitMin none = none ↔ l = [] := by
  cases l with
  | nil => simp
  | cons x l =>
    simp only [List.foldl_cons, hitMin]
    obtain ⟨b, hb, -, -, -⟩ := foldl_hitMin_some l x
    simp [hb]

lemma hit_eq_none_iff (l : List Ixn) :
    hit l = none ↔ ∀ i ∈ l, i.t < 0 := by
  unfold hit
  rw [foldl_hitMin_none_eq_none, List.filter_eq_nil_iff]
  constructor
  · intro h i hi
    by_contra hneg
    exact absurd (by simpa using not_lt.mp hneg) (by simpa using h i hi)
  · intro h i hi
    simpa using not_le.mpr (h i hi)

lemma hit_eq_some (l : List Ixn) (i : Ixn) (h : hit l = some i) :
    i ∈ l ∧ 0 ≤ i.t ∧ ∀ j ∈ l, 0 ≤ j.t → i.t ≤ j.t := by
  unfold hit at h
  rcases hf : l.filter (fun i => 0 ≤ i.t) with _ | ⟨x, rest⟩
  · rw [hf] at h; simp at h
  · rw [hf] at h
    simp only [List.foldl_cons, hitMin] at h
    obtain ⟨b, hb, hmem, hle, hmin⟩ := foldl_hitMin_some rest x
    rw [hb] at h
    replace h := Option.some.inj h
    subst h
    have hmem' : b ∈ l.filter (fun i => 0 ≤ i.t) := by
      rw [hf]
      rcases hmem with h | h
      · simp [h]
      · simp [h]
    have hpos : 0 ≤ b.t := by
      have := List.of_mem_filter hmem'
      simpa using this
    refine ⟨List.mem_of_mem_filter hmem', hpos, ?_⟩
    intro j hj hjpos
    have hjf : j ∈ l.filter (fun i => 0 ≤ i.t) :=
      List.mem_filter.mpr ⟨hj, by simpa using hjpos⟩
    rw [hf] at hjf
    rcases List.mem_cons.mp hjf with h | h
    · exact h ▸ hle
    · exact hmin j h

lemma hit_isSome (l : List Ixn) (i : Ixn) (hi : i ∈ l) (hpos : 0 ≤ i.t) :
    ∃ b, hit l = some b := by
  cases hb : hit l with
  | some b => exact ⟨b, rfl⟩
  | none => exact absurd hpos (not_le.mpr ((hit_eq_none_iff l).mp hb i hi))

/-- C3: `hit` returns, among the intersections with `t ≥ 0`, one of minimum
`t` that is an element of the input; it returns `none` exactly when no
intersection has `t ≥ 0` (so it never returns a `t < 0` intersection); the
returned `t` is invariant under permutation of the input; and on the t-list
`[5, 7, -3, 2]` the returned hit has `t = 2`. -/
theorem hit_spec :
    (∀ l : List Ixn, hit l = none ↔ ∀ i ∈ l, i.t < 0) ∧
    (∀ (l : List Ixn) (i : Ixn), hit l = some i →
      i ∈ l ∧ 0 ≤ i.t ∧ ∀ j ∈ l, 0 ≤ j.t → i.t ≤ j.t) ∧
    (∀ l l' : List Ixn, l.Perm l' →
      (hit l).map Ixn.t = (hit l').map Ixn.t) ∧
    ((hit [⟨5, ⟨1, 1⟩⟩, ⟨7, ⟨1, 1⟩⟩, ⟨-3, ⟨1, 1⟩⟩, ⟨2, ⟨1, 1⟩⟩]).map Ixn.t
      = some 2) := by
  refine ⟨hit_eq_none_iff, hit_eq_some, ?_, by decide⟩
  intro l l' hperm
  cases hl : hit l with
  | none =>
    cases hl' : hit l' with
    | none => rfl
    | some i' =>
      obtain ⟨hmem, hpos, -⟩ := hit_eq_some l' i' hl'
      have := (hit_eq_none_iff l).mp hl i' (hperm.symm.subset hmem)
      exact absurd hpos (not_le.mpr this)
  | some i =>
    obtain ⟨hmem, hpos, hmin⟩ := hit_eq_some l i hl
    cases hl' : hit l' with
    | none =>
      have := (hit_eq_none_iff l').mp hl' i (hperm.subset hmem)
      exact absurd hpos (not_le.mpr this)
    | some i' =>
      obtain ⟨hmem', hpos', hmin'⟩ := hit_eq_some l' i' hl'
      have h1 : i.t ≤ i'.t := hmin i' (hperm.symm.subset hmem') hpos'
      have h2 : i'.t ≤ i.t := hmin' i (hperm.subset hmem) hpos
      simp [le_antisymm h1 h2]

/-- C3 witness: applying `hit_spec` to the concrete list `[t=2]`. -/
theorem hit_spec_witness :
    (⟨2, ⟨1, 1⟩⟩ : Ixn) ∈ [(⟨2, ⟨1, 1⟩⟩ : Ixn)] ∧ (0 : ℚ) ≤ 2 ∧
      ∀ j ∈ [(⟨2, ⟨1, 1⟩⟩ : Ixn)], 0 ≤ j.t → (2 : ℚ) ≤ j.t :=
  hit_spec.2.1 [⟨2, ⟨1, 1⟩⟩] ⟨2, ⟨1, 1⟩⟩ (by decide)

/-- The `containers` stack toggle of `prepare_computations`
(intersection.rs:113-120): if a shape with the same id is already on the
stack, remove its first occurrence, otherwise push the shape on top. The
top of the stack is the list's last element, matching `Vec::push` /
`Vec::last`. -/
def toggle (cont : List ShapeRef) (s : ShapeRef) : List ShapeRef :=
  match cont.findIdx? (fun x => x.id == s.id) with
  | some k => cont.eraseIdx k
  | none => cont ++ [s]

/-- `container.last().map_or(1.0, |s| s.material().refractive_index)`:
the refractive index of the innermost currently-entered shape, 1.0
(vacuum) for an empty stack. -/
def stackTop (cont : List ShapeRef) : ℚ :=
  match cont.getLast? with
  | some s => s.refractiveIndex
  | none => 1

/-- The n1/n2 loop of `prepare_computations` (intersection.rs:105-127).
The target hit is identified by pointer equality with a list element
(`std::ptr::eq(i, self)`), modelled by the countdown `k`: the pointer
match happens exactly at the k-th element of the list. `n1` is read from
the stack before the target's toggle, `n2` after it, and the loop breaks.
If `k` is not the position of any element the loop falls through and the
`Computations` keep their initial `n1 = n2 = 0.0`
(intersection.rs:102-103). -/
def n1n2Walk : List Ixn → Nat → List ShapeRef → ℚ × ℚ
  | [], _, _ => (0, 0)
  | i :: rest, k, cont =>
    let cont1 := toggle cont i.object
    if k = 0 then (stackTop cont, stackTop cont1)
    else n1n2Walk rest (k - 1) cont1

/-- The `(n1, n2)` pair `prepare_computations` derives when `self` is the
`k`-th element (by address) of the sorted intersection list `xs`. -/
def n1n2 (xs : List Ixn) (k : Nat) : ℚ × ℚ := n1n2Walk xs k []

/-- The stack of currently-entered shapes after processing a prefix of the
intersection list, starting from stack `cont`. -/
def stackAfter (cont : List ShapeRef) (xs : List Ixn) : List ShapeRef :=
  xs.foldl (fun c i => toggle c i.object) cont

lemma n1n2Walk_eq_stackAfter (xs : List Ixn) :
    ∀ (k : Nat) (cont : List ShapeRef), k < xs.length →
      n1n2Walk xs k cont =
        (stackTop (stackAfter cont (xs.take k)),
         stackTop (stackAfter cont (xs.take (k + 1)))) := by
  induction xs with
  | nil => intro k cont h; simp at h
  | cons i rest ih =>
    intro k cont h
    cases k with
    | zero => simp [n1n2Walk, stackAfter]
    | succ k =>
      have hk : k < rest.length := by simpa using h
      simp only [n1n2Walk, Nat.succ_ne_zero, if_false, Nat.succ_sub_one,
        List.take_succ_cons, stackAfter, List.foldl_cons]
      exact ih k (toggle cont i.object) hk

lemma n1n2Walk_out_of_range (xs : List Ixn) :
    ∀ (k : Nat) (cont : List ShapeRef), xs.length ≤ k →
      n1n2Walk xs k cont = (0, 0) := by
  induction xs with
  | nil => intro k cont _; rfl
  | cons i rest ih =>
    intro k cont h
    have hk : k ≠ 0 := by
      intro h0
      rw [h0] at h
      simp at h
    simp only [n1n2Walk, hk, if_false]
    simp only [List.length_cons] at h
    exact ih (k - 1) _ (by omega)

/-- The three nested glass spheres of the spec's n1/n2 example, refractive
indices 1.5, 2.0, 2.5 (world.rs test `transluscence_1`). -/
def glassA : ShapeRef := ⟨1, 3/2⟩

def glassB : ShapeRef := ⟨2, 2⟩

def glassC : ShapeRef := ⟨3, 5/2⟩

/-- The six ordered boundary crossings of the nested-glass-spheres ray. -/
def glassXs : List Ixn :=
  [⟨2, glassA⟩, ⟨11/4, glassB⟩, ⟨13/4, glassC⟩,
   ⟨19/4, glassB⟩, ⟨21/4, glassC⟩, ⟨6, glassA⟩]

/-- C2: walking the sorted intersection list, `n1` is the refractive index
of the stack top (1.0 if empty) just before the hit shape's membership is
toggled and `n2` the stack top's index just after the toggle — stated as:
the pair at target position k equals the stack tops after folding the
toggle over the length-k and length-(k+1) prefixes; and the three nested
glass spheres with indices 1.5, 2.0, 2.5 yield exactly the six pairs
(1.0,1.5), (1.5,2.0), (2.0,2.5), (2.5,2.5), (2.5,1.5), (1.5,1.0). -/
theorem n1n2_stack_spec :
    (∀ (xs : List Ixn) (k : Nat), k < xs.length →
      n1n2 xs k =
        (stackTop (stackAfter [] (xs.take k)),
         stackTop (stackAfter [] (xs.take (k + 1))))) ∧
    (List.range 6).map (n1n2 glassXs) =
      [(1, 3/2), (3/2, 2), (2, 5/2), (5/2, 5/2), (5/2, 3/2), (3/2, 1)] := by
  constructor
  · intro xs k h
    exact n1n2Walk_eq_stackAfter xs k [] h
  · norm_num [List.range_succ, glassXs, glassA, glassB, glassC, n1n2,
      n1n2Walk, toggle, stackTop, stackAfter, List.findIdx?_cons]

/-- C2 witness: `n1n2_stack_spec` applied to the glass-spheres list at
target position 3 (the innermost exit crossing). -/
theorem n1n2_stack_spec_witness :
    n1n2 glassXs 3 =
      (stackTop (stackAfter [] (glassXs.take 3)),
       stackTop (stackAfter [] (glassXs.take 4))) :=
  n1n2_stack_spec.1 glassXs 3 (by decide)

/-- C9: `prepare_computations` finds the target hit by pointer identity;
when the target is not an element (by address) of the supplied list — in
particular for an empty list — the walk falls through and the returned
`Computations` carry `n1 = n2 = 0.0`, not the vacuum pair `1.0/1.0`. -/
theorem n1n2_ptr_identity_miss :
    (∀ (xs : List Ixn) (k : Nat), xs.length ≤ k → n1n2 xs k = (0, 0)) ∧
    (∀ k : Nat, n1n2 [] k = (0, 0)) ∧ n1n2 [] 0 ≠ (1, 1) := by
  refine ⟨fun xs k h => n1n2Walk_out_of_range xs k [] h, fun k => rfl, by decide⟩

/-- C9 witness: `n1n2_ptr_identity_miss` applied to the glass-spheres list
with a target address outside the list. -/
theorem n1n2_ptr_identity_miss_witness : n1n2 glassXs 6 = (0, 0) :=
  n1n2_ptr_identity_miss.1 glassXs 6 (by decide)

/-- Linear RGB color (color.rs), componentwise arithmetic. -/
structure Color where
  r : ℚ
  g : ℚ
  b : ℚ
deriving DecidableEq, Repr

/-- `Color::black()`. -/
def Color.black : Color := ⟨0, 0, 0⟩

instance : Add Color := ⟨fun c d => ⟨c.r + d.r, c.g + d.g, c.b + d.b⟩⟩

/-- `Color * f64` (color.rs `impl Mul<I> for Color`): componentwise. -/
def Color.scale (c : Color) (s : ℚ) : Color := ⟨c.r * s, c.g * s, c.b * s⟩

/-- The fields of `Computations` that the shading recursion of `World`
reads, abstracted over the ray type `α`. `cosT` stands for the f64 value
`sqrt(1 - sin2_t)` (irrational in general), `surface` for the
`Material::lighting` result including the shadow test, and
`reflectRay`/`refractRay` for the secondary rays cast from
`over_point`/`under_point`; all are carried as data because the claims
settled here concern only the recursion and its branch guards. -/
structure Comps (α : Type) where
  reflective : ℚ
  transparency : ℚ
  n1 : ℚ
  n2 : ℚ
  cosI : ℚ
  cosT : ℚ
  surface : Color
  reflectRay : α
  refractRay : α

/-- The scene seen by the shading recursion: `hitComps` is the composite
of `World::intersect`, `Intersection::hit` and `prepare_computations` —
`none` models a ray that hits nothing. -/
structure SWorld (α : Type) where
  hitComps : α → Option (Comps α)

/-- `Computations::schlick` (intersection.rs:54-68), with `cosT` standing
for the computed `sqrt(1 - sin2_t)`. -/
def schlick {α : Type} (c : Comps α) : ℚ :=
  let r0 := ((c.n1 - c.n2) / (c.n1 + c.n2)) ^ 2
  if c.n2 < c.n1 then
    let n := c.n1 / c.n2
    let sin2t := n ^ 2 * (1 - c.cosI ^ 2)
    if 1 < sin2t then 1
    else r0 + (1 - r0) * (1 - c.cosT) ^ 5
  else r0 + (1 - r0) * (1 - c.cosI) ^ 5

/-- `World::reflected_color` (world.rs:112-120) with the recursive
`color_at` call at `remaining - 1` abstracted as `recur`: black when the
material is not reflective or the bounce budget is exhausted
(`remaining <= 0` on a `usize`), then scaled by the reflectivity. -/
def reflectedColor {α : Type} (recur : α → Color) (c : Comps α)
    (remaining : Nat) : Color :=
  Color.scale
    (if c.reflective = 0 ∨ remaining = 0 then Color.black
     else recur c.reflectRay)
    c.reflective

/-- `World::refracted_color` (world.rs:121-141) with the recursive
`color_at` call abstracted as `recur`: black on zero bounce budget, zero
transparency, or total internal reflection (`sin2_t > 1`). -/
def refractedColor {α : Type} (recur : α → Color) (c : Comps α)
    (remaining : Nat) : Color :=
  if remaining = 0 then Color.black
  else if c.transparency = 0 then Color.black
  else
    let nr := c.n1 / c.n2
    let sin2t := nr ^ 2 * (1 - c.cosI ^ 2)
    if 1 < sin2t then Color.black
    else Color.scale (recur c.refractRay) c.transparency

/-- The final combination of `World::shade_hit` (world.rs:80-86): Schlick
blending when the material is both reflective and transparent, plain sum
otherwise. -/
def combineColors {α : Type} (c : Comps α) (reflected refracted : Color) :
    Color :=
  if 0 < c.reflective ∧ 0 < c.transparency then
    let reflectance := schlick c
    c.surface + Color.scale reflected reflectance +
      Color.scale refracted (1 - reflectance)
  else c.surface + reflected + refracted

/-- `World::shade_hit` (world.rs:66-87) with the recursive call
abstracted. -/
def shadeHit {α : Type} (recur : α → Color) (c : Comps α)
    (remaining : Nat) : Color :=
  combineColors c (reflectedColor recur c remaining)
    (refractedColor recur c remaining)

/-- `World::color_at` (world.rs:88-96), by structural recursion on the
bounce budget; at budget 0 neither secondary-color branch invokes the
recursive call (see `shadeHit_budget_zero`), so the constant-black
callback is never consulted. -/
def colorAt {α : Type} (w : SWorld α) : Nat → α → Color
  | 0, r =>
    match w.hitComps r with
    | none => Color.black
    | some c => shadeHit (fun _ => Color.black) c 0
  | n + 1, r =>
    match w.hitComps r with
    | none => Color.black
    | some c => shadeHit (fun r1 => colorAt w n r1) c (n + 1)

lemma shadeHit_budget_zero {α : Type} (f g : α → Color) (c : Comps α) :
    shadeHit f c 0 = shadeHit g c 0 := by
  simp [shadeHit, reflectedColor, refractedColor]

/-- `reflected_color` with the recursion instrumented by fuel: `none`
models a recursive call that would not terminate. -/
def reflectedColorFuel {α : Type} (recur : α → Option Color)
    (c : Comps α) (remaining : Nat) : Option Color :=
  (if c.reflective = 0 ∨ remaining = 0 then some Color.black
   else recur c.reflectRay).map
    (fun x => Color.scale x c.reflective)

/-- `refracted_color` with the recursion instrumented by fuel. -/
def refractedColorFuel {α : Type} (recur : α → Option Color)
    (c : Comps α) (remaining : Nat) : Option Color :=
  if remaining = 0 then some Color.black
  else if c.transparency = 0 then some Color.black
  else
    let nr := c.n1 / c.n2
    let sin2t := nr ^ 2 * (1 - c.cosI ^ 2)
    if 1 < sin2t then some Color.black
    else (recur c.refractRay).map (fun x => Color.scale x c.transparency)

/-- `shade_hit` with the recursion instrumented by fuel. -/
def shadeHitFuel {α : Type} (recur : α → Option Color) (c : Comps α)
    (remaining : Nat) : Option Color :=
  (reflectedColorFuel recur c remaining).bind (fun reflected =>
    (refractedColorFuel recur c remaining).map (fun refracted =>
      combineColors c reflected refracted))

/-- `color_at` with an explicit fuel counter `g` for the recursion depth:
each recursive call consumes one unit of fuel and passes
`remaining - 1` for the bounce budget exactly as the source does;
exhausted fuel yields `none`. -/
def colorAtFuel {α : Type} (w : SWorld α) : Nat → Nat → α → Option Color
  | 0, _, _ => none
  | g + 1, remaining, r =>
    match w.hitComps r with
    | none => some Color.black
    | some c =>
      shadeHitFuel (fun r1 => colorAtFuel w g (remaining - 1) r1) c
        remaining

lemma reflectedColorFuel_eq {α : Type} (f : α → Option Color)
    (f0 : α → Color) (h : ∀ x, f x = some (f0 x)) (c : Comps α)
    (remaining : Nat) :
    reflectedColorFuel f c remaining =
      some (reflectedColor f0 c remaining) := by
  by_cases hc : c.reflective = 0 ∨ remaining = 0 <;>
    simp [reflectedColorFuel, reflectedColor, hc, h]

lemma refractedColorFuel_eq {α : Type} (f : α → Option Color)
    (f0 : α → Color) (h : ∀ x, f x = some (f0 x)) (c : Comps α)
    (remaining : Nat) :
    refractedColorFuel f c remaining =
      some (refractedColor f0 c remaining) := by
  by_cases h1 : remaining = 0
  · simp [refractedColorFuel, refractedColor, h1]
  · by_cases h2 : c.transparency = 0
    · simp [refractedColorFuel, refractedColor, h1, h2]
    · by_cases h3 : 1 < (c.n1 / c.n2) ^ 2 * (1 - c.cosI ^ 2) <;>
        simp [refractedColorFuel, refractedColor, h1, h2, h3, h]

lemma shadeHitFuel_eq {α : Type} (f : α → Option Color) (f0 : α → Color)
    (h : ∀ x, f x = some (f0 x)) (c : Comps α) (remaining : Nat) :
    shadeHitFuel f c remaining = some (shadeHit f0 c remaining) := by
  rw [shadeHitFuel, reflectedColorFuel_eq f f0 h, refractedColorFuel_eq f f0 h]
  rfl

lemma shadeHitFuel_zero {α : Type} (f : α → Option Color)
    (f0 : α → Color) (c : Comps α) :
    shadeHitFuel f c 0 = some (shadeHit f0 c 0) := by
  simp [shadeHitFuel, shadeHit, reflectedColorFuel, reflectedColor,
    refractedColorFuel, refractedColor]

/-- C4: with bounce budget 0, `reflected_color` and `refracted_color`
return black for every material and every world; and the shading
recursion of `color_at`/`shade_hit` terminates for every finite initial
bounce budget because each recursive call strictly decrements the
remaining count: any fuel strictly above the budget suffices, the
fuel-instrumented recursion never reporting nontermination and agreeing
with the total function. -/
theorem bounce_budget_spec :
    (∀ (α : Type) (recur : α → Color) (c : Comps α),
      reflectedColor recur c 0 = Color.black ∧
      refractedColor recur c 0 = Color.black) ∧
    (∀ (α : Type) (w : SWorld α) (fuel remaining : Nat) (r : α),
      remaining < fuel →
        colorAtFuel w fuel remaining r = some (colorAt w remaining r)) := by
  constructor
  · intro α recur c
    constructor
    · simp [reflectedColor, Color.scale, Color.black]
    · simp [refractedColor]
  · intro α w fuel
    induction fuel with
    | zero => intro remaining r h; omega
    | succ g ih =>
      intro remaining r _
      cases remaining with
      | zero =>
        cases hc : w.hitComps r with
        | none => simp [colorAtFuel, colorAt, hc]
        | some c =>
          simp only [colorAtFuel, colorAt, hc]
          exact shadeHitFuel_zero _ _ c
      | succ n =>
        cases hc : w.hitComps r with
        | none => simp [colorAtFuel, colorAt, hc]
        | some c =>
          simp only [colorAtFuel, colorAt, hc, Nat.succ_sub_one]
          exact shadeHitFuel_eq _ _ (fun x => ih n x (by omega)) c (n + 1)

/-- A concrete two-bounce world over ray type `Nat`: every ray hits a
fully reflective surface whose reflection ray is the successor ray. -/
def mirrorWorld : SWorld Nat :=
  ⟨fun r =>
    some
      { reflective := 1, transparency := 0, n1 := 1, n2 := 1, cosI := 1,
        cosT := 1, surface := ⟨1, 0, 0⟩, reflectRay := r + 1,
        refractRay := r + 1 }⟩

/-- C4 witness: `bounce_budget_spec` applied to `mirrorWorld` with bounce
budget 2 and fuel 3, and to one of its `Computations` at budget 0. -/
theorem bounce_budget_spec_witness :
    colorAtFuel mirrorWorld 3 2 0 = some (colorAt mirrorWorld 2 0) ∧
      reflectedColor (fun _ : Nat => Color.black)
        { reflective := 1, transparency := 0, n1 := 1, n2 := 1, cosI := 1,
          cosT := 1, surface := ⟨1, 0, 0⟩, reflectRay := 1,
          refractRay := 1 } 0 = Color.black :=
  ⟨bounce_budget_spec.2 Nat mirrorWorld 3 2 0 (by decide),
   (bounce_budget_spec.1 Nat (fun _ => Color.black) _).1⟩

/-- 4-component homogeneous vector (vec4.rs): `w = 1` for points, `w = 0`
for directions. -/
structure Vec4q where
  x : ℚ
  y : ℚ
  z : ℚ
  w : ℚ
deriving DecidableEq, Repr

/-- `Vec4::point`. -/
def Vec4q.point (x y z : ℚ) : Vec4q := ⟨x, y, z, 1⟩

/-- `Vec4::vector`. -/
def Vec4q.vector (x y z : ℚ) : Vec4q := ⟨x, y, z, 0⟩

/-- A ray (ray.rs): origin point and direction vector. -/
structure Rayq where
  origin : Vec4q
  direction : Vec4q
deriving DecidableEq, Repr

/-- `EPSILON` (math.rs): `0.0001`. -/
def EPSILON : ℚ := 1 / 10000

/-- The f64 values the cube slab test manipulates: finite numbers plus the
IEEE specials that `tmin_numerator * INFINITY` can produce — `±inf` for a
nonzero numerator and `nan` for a zero one. -/
inductive XF where
  | nan
  | negInf
  | fin (q : ℚ)
  | posInf
deriving DecidableEq, Repr

/-- IEEE `<` on the modelled f64 values: any comparison against `nan` is
false. -/
def XF.lt : XF → XF → Bool
  | .nan, _ => false
  | _, .nan => false
  | .negInf, .negInf => false
  | .negInf, _ => true
  | .fin _, .negInf => false
  | .fin a, .fin b => decide (a < b)
  | .fin _, .posInf => true
  | .posInf, _ => false

/-- Rust `f64::max`: if one argument is `nan` the other is returned,
otherwise the larger. -/
def XF.fmax (a b : XF) : XF :=
  match a, b with
  | .nan, b => b
  | a, .nan => a
  | a, b => if XF.lt a b then b else a

/-- Rust `f64::min`: if one argument is `nan` the other is returned,
otherwise the smaller. -/
def XF.fmin (a b : XF) : XF :=
  match a, b with
  | .nan, b => b
  | a, .nan => a
  | a, b => if XF.lt b a then b else a

/-- `numerator * INFINITY` in IEEE f64: `+inf`, `-inf`, or `nan` for a
zero numerator. -/
def mulPosInf (q : ℚ) : XF :=
  if 0 < q then .posInf else if q < 0 then .negInf else .nan

/-- `Cube::check_axis` (cube.rs:44-58): per-axis slab entry/exit
parameters, with a near-zero direction component (`|direction| < EPSILON`)
producing the numerators scaled by `INFINITY`, then swapped into
ascending order unless the comparison involves `nan`. -/
def checkAxis (origin direction : ℚ) : XF × XF :=
  let tminNum : ℚ := -1 - origin
  let tmaxNum : ℚ := 1 - origin
  let p :=
    if EPSILON ≤ |direction| then
      (XF.fin (tminNum / direction), XF.fin (tmaxNum / direction))
    else (mulPosInf tminNum, mulPosInf tmaxNum)
  if XF.lt p.2 p.1 then (p.2, p.1) else p

/-- `Cube::local_intersect` (cube.rs:62-78): `tmin` is the max of the
per-axis minima, `tmax` the min of the per-axis maxima; `tmin > tmax`
means miss, otherwise the two hits `(tmin, tmax)` in that order. Only the
`t` parameters are returned: the intersection records also carry `self`
and `u = v = None`, which no claim here consults. -/
def cubeLocalIntersect (ray : Rayq) : List XF :=
  let xt := checkAxis ray.origin.x ray.direction.x
  let yt := checkAxis ray.origin.y ray.direction.y
  let zt := checkAxis ray.origin.z ray.direction.z
  let tmin := (xt.1.fmax yt.1).fmax zt.1
  let tmax := (xt.2.fmin yt.2).fmin zt.2
  if XF.lt tmax tmin then [] else [tmin, tmax]

lemma checkAxis_parallel_outside_pos (o d : ℚ) (hd : |d| < EPSILON)
    (ho : 1 < o) : checkAxis o d = (.negInf, .negInf) := by
  simp only [checkAxis, not_le.mpr hd, if_false]
  have h1 : (-1 - o : ℚ) < 0 := by linarith
  have h2 : (1 - o : ℚ) < 0 := by linarith
  simp [mulPosInf, h1, h2, not_lt.mpr h1.le, not_lt.mpr h2.le, XF.lt]

lemma checkAxis_parallel_outside_neg (o d : ℚ) (hd : |d| < EPSILON)
    (ho : 1 < -o) : checkAxis o d = (.posInf, .posInf) := by
  simp only [checkAxis, not_le.mpr hd, if_false]
  have h1 : (0 : ℚ) < -1 - o := by linarith
  have h2 : (0 : ℚ) < 1 - o := by linarith
  simp [mulPosInf, h1, h2, XF.lt]

lemma checkAxis_fin (o d : ℚ) (hd : EPSILON ≤ |d|) :
    ∃ a b, checkAxis o d = (.fin a, .fin b) := by
  simp only [checkAxis, hd, if_true]
  by_cases hs : XF.lt (XF.fin ((1 - o) / d)) (XF.fin ((-1 - o) / d)) = true
  · exact ⟨(1 - o) / d, (-1 - o) / d, by simp [hs]⟩
  · exact ⟨(-1 - o) / d, (1 - o) / d, by simp [hs]⟩

lemma fmin_negInf_left (b : XF) : XF.fmin .negInf b = .negInf := by
  cases b <;> simp [XF.fmin, XF.lt]

lemma fmax_posInf_left (b : XF) : XF.fmax .posInf b = .posInf := by
  cases b <;> simp [XF.fmax, XF.lt]

/-- `fmax _ (fin _)` is finite or `+inf`. -/
lemma fmax_fin_notBelow (u : XF) (q : ℚ) :
    (∃ p, XF.fmax u (.fin q) = .fin p) ∨ XF.fmax u (.fin q) = .posInf := by
  cases u with
  | nan => exact Or.inl ⟨q, rfl⟩
  | negInf => exact Or.inl ⟨q, by simp [XF.fmax, XF.lt]⟩
  | fin p =>
    by_cases h : p < q
    · exact Or.inl ⟨q, by simp [XF.fmax, XF.lt, h]⟩
    · exact Or.inl ⟨p, by simp [XF.fmax, XF.lt, h]⟩
  | posInf => exact Or.inr (by simp [XF.fmax, XF.lt])

/-- `fmin _ (fin _)` is finite or `-inf`. -/
lemma fmin_fin_notAbove (u : XF) (q : ℚ) :
    (∃ p, XF.fmin u (.fin q) = .fin p) ∨ XF.fmin u (.fin q) = .negInf := by
  cases u with
  | nan => exact Or.inl ⟨q, rfl⟩
  | posInf => exact Or.inl ⟨q, by simp [XF.fmin, XF.lt]⟩
  | fin p =>
    by_cases h : q < p
    · exact Or.inl ⟨q, by simp [XF.fmin, XF.lt, h]⟩
    · exact Or.inl ⟨p, by simp [XF.fmin, XF.lt, h]⟩
  | negInf => exact Or.inr (by simp [XF.fmin, XF.lt])

lemma lt_negInf_of_notBelow (a : XF)
    (h : (∃ p, a = .fin p) ∨ a = .posInf) : XF.lt .negInf a = true := by
  rcases h with ⟨p, rfl⟩ | rfl <;> simp [XF.lt]

lemma lt_posInf_of_notAbove (a : XF)
    (h : (∃ p, a = .fin p) ∨ a = .negInf) : XF.lt a .posInf = true := by
  rcases h with ⟨p, rfl⟩ | rfl <;> simp [XF.lt]

/-- C6: the cube's local intersection is the per-axis slab test. A ray
parallel to the x slabs (`|dx| < EPSILON`) and outside them (`1 < |ox|`),
with a regular z component, gets no valid window and misses; the result is
always either empty (when `tmin > tmax`) or exactly the ordered pair
`[tmin, tmax]` with `tmax` not below `tmin`; and the ray from
`(0, 0.5, 5)` with direction `(0, 0, -1)` yields `t = 4.0` and `t = 6.0`. -/
theorem cube_slab_spec :
    (∀ r : Rayq, |r.direction.x| < EPSILON → 1 < |r.origin.x| →
      EPSILON ≤ |r.direction.z| → cubeLocalIntersect r = []) ∧
    (∀ r : Rayq, cubeLocalIntersect r = [] ∨
      ∃ t1 t2, cubeLocalIntersect r = [t1, t2] ∧ XF.lt t2 t1 = false) ∧
    cubeLocalIntersect ⟨Vec4q.point 0 (1/2) 5, Vec4q.vector 0 0 (-1)⟩ =
      [.fin 4, .fin 6] := by
  refine ⟨?_, ?_, ?_⟩
  · intro r hdx hox hdz
    obtain ⟨za, zb, hz⟩ := checkAxis_fin r.origin.z r.direction.z hdz
    rcases lt_abs.mp hox with h | h
    · rw [cubeLocalIntersect, checkAxis_parallel_outside_pos _ _ hdx h, hz]
      simp only [fmin_negInf_left]
      exact if_pos (lt_negInf_of_notBelow _ (fmax_fin_notBelow _ za))
    · rw [cubeLocalIntersect, checkAxis_parallel_outside_neg _ _ hdx h, hz]
      simp only [fmax_posInf_left]
      exact if_pos (lt_posInf_of_notAbove _ (fmin_fin_notAbove _ zb))
  · intro r
    rw [cubeLocalIntersect]
    by_cases h : XF.lt ((((checkAxis r.origin.x r.direction.x).2).fmin
        ((checkAxis r.origin.y r.direction.y).2)).fmin
        ((checkAxis r.origin.z r.direction.z).2))
        ((((checkAxis r.origin.x r.direction.x).1).fmax
        ((checkAxis r.origin.y r.direction.y).1)).fmax
        ((checkAxis r.origin.z r.direction.z).1)) = true
    · exact Or.inl (if_pos h)
    · refine Or.inr ⟨_, _, if_neg h, ?_⟩
      simpa using h
  · norm_num [cubeLocalIntersect, checkAxis, EPSILON, Vec4q.point,
      Vec4q.vector, mulPosInf, XF.lt, XF.fmax, XF.fmin]

/-- C6 witness: `cube_slab_spec` applied to the ray from `(5, 0, 0)` along
`(0, 0, 1)` — parallel to the x slabs and outside them. -/
theorem cube_slab_spec_witness :
    cubeLocalIntersect ⟨Vec4q.point 5 0 0, Vec4q.vector 0 0 1⟩ = [] :=
  cube_slab_spec.1 ⟨Vec4q.point 5 0 0, Vec4q.vector 0 0 1⟩
    (by norm_num [Vec4q.vector, EPSILON])
    (by norm_num [Vec4q.point])
    (by norm_num [Vec4q.vector, EPSILON])

/-- 4×4 matrix (matrix.rs `SqMatrix<4>`), row-major entries. -/
structure M4 where
  a00 : ℚ
  a01 : ℚ
  a02 : ℚ
  a03 : ℚ
  a10 : ℚ
  a11 : ℚ
  a12 : ℚ
  a13 : ℚ
  a20 : ℚ
  a21 : ℚ
  a22 : ℚ
  a23 : ℚ
  a30 : ℚ
  a31 : ℚ
  a32 : ℚ
  a33 : ℚ
deriving DecidableEq, Repr

/-- Matrix–vector product (matrix.rs `impl Mul<&Vec4> for &Matrix<4,4>`). -/
def M4.mulVec (m : M4) (v : Vec4q) : Vec4q :=
  ⟨m.a00 * v.x + m.a01 * v.y + m.a02 * v.z + m.a03 * v.w,
   m.a10 * v.x + m.a11 * v.y + m.a12 * v.z + m.a13 * v.w,
   m.a20 * v.x + m.a21 * v.y + m.a22 * v.z + m.a23 * v.w,
   m.a30 * v.x + m.a31 * v.y + m.a32 * v.z + m.a33 * v.w⟩

/-- `Bounds` (bounds.rs): an AABB as a min/max pair of points. -/
structure SBounds where
  min : Vec4q
  max : Vec4q
deriving DecidableEq, Repr

/-- `Bounds::transform` (bounds.rs:15-22): transforms only the two stored
corner points. -/
def SBounds.transform (b : SBounds) (m : M4) : SBounds :=
  ⟨m.mulVec b.min, m.mulVec b.max⟩

/-- Componentwise membership of a point between the box's min and max. -/
def SBounds.contains (b : SBounds) (p : Vec4q) : Prop :=
  b.min.x ≤ p.x ∧ p.x ≤ b.max.x ∧ b.min.y ≤ p.y ∧ p.y ≤ b.max.y ∧
    b.min.z ≤ p.z ∧ p.z ≤ b.max.z

/-- The invertible affine shear `(x, y, z) ↦ (x - y, y, z)`. -/
def shearM : M4 := ⟨1, -1, 0, 0, 0, 1, 0, 0, 0, 0, 1, 0, 0, 0, 0, 1⟩

/-- The unit box `[-1, 1]³`. -/
def unitBox : SBounds := ⟨Vec4q.point (-1) (-1) (-1), Vec4q.point 1 1 1⟩

/-- C5 counterexample: for the invertible affine shear
`(x, y, z) ↦ (x - y, y, z)` the corner-transformed box of `[-1, 1]³`
degenerates to `x ∈ [0, 0]` and fails to contain the image `(2, -1, 0)` of
the box point `(1, -1, 0)` — `Bounds::transform` does not enclose the
image of every point of the box. -/
theorem bounds_transform_not_enclosing :
    unitBox.contains (Vec4q.point 1 (-1) 0) ∧
      ¬ (unitBox.transform shearM).contains
          (shearM.mulVec (Vec4q.point 1 (-1) 0)) := by
  constructor
  · norm_num [unitBox, SBounds.contains, Vec4q.point]
  · norm_num [unitBox, shearM, SBounds.contains, SBounds.transform,
      M4.mulVec, Vec4q.point]

/-- C5 (amended): `Bounds::transform` maps a box to the AABB spanned by
the images of its two corners; this encloses the image of every box point
whenever the affine map's upper-left 3×3 entries are all nonnegative
(e.g. nonnegative scalings and translations) — but not for every affine
transform, as `bounds_transform_not_enclosing` shows. -/
theorem bounds_transform_enclosing_of_nonneg (b : SBounds) (m : M4)
    (p : Vec4q)
    (h00 : 0 ≤ m.a00) (h01 : 0 ≤ m.a01) (h02 : 0 ≤ m.a02)
    (h10 : 0 ≤ m.a10) (h11 : 0 ≤ m.a11) (h12 : 0 ≤ m.a12)
    (h20 : 0 ≤ m.a20) (h21 : 0 ≤ m.a21) (h22 : 0 ≤ m.a22)
    (hminw : b.min.w = 1) (hmaxw : b.max.w = 1) (hpw : p.w = 1)
    (hp : b.contains p) : (b.transform m).contains (m.mulVec p) := by
  obtain ⟨p1, p2, p3, p4, p5, p6⟩ := hp
  refine ⟨?_, ?_, ?_, ?_, ?_, ?_⟩ <;>
      simp only [SBounds.transform, M4.mulVec, hminw, hmaxw, hpw]
  · linarith [mul_le_mul_of_nonneg_left p1 h00,
      mul_le_mul_of_nonneg_left p3 h01, mul_le_mul_of_nonneg_left p5 h02]
  · linarith [mul_le_mul_of_nonneg_left p2 h00,
      mul_le_mul_of_nonneg_left p4 h01, mul_le_mul_of_nonneg_left p6 h02]
  · linarith [mul_le_mul_of_nonneg_left p1 h10,
      mul_le_mul_of_nonneg_left p3 h11, mul_le_mul_of_nonneg_left p5 h12]
  · linarith [mul_le_mul_of_nonneg_left p2 h10,
      mul_le_mul_of_nonneg_left p4 h11, mul_le_mul_of_nonneg_left p6 h12]
  · linarith [mul_le_mul_of_nonneg_left p1 h20,
      mul_le_mul_of_nonneg_left p3 h21, mul_le_mul_of_nonneg_left p5 h22]
  · linarith [mul_le_mul_of_nonneg_left p2 h20,
      mul_le_mul_of_nonneg_left p4 h21, mul_le_mul_of_nonneg_left p6 h22]

/-- A nonnegative scaling-plus-translation transform. -/
def scaleTransM : M4 := ⟨2, 0, 0, 1, 0, 3, 0, 0, 0, 0, 4, 0, 0, 0, 0, 1⟩

/-- C5 witness: `bounds_transform_enclosing_of_nonneg` applied to the unit
box, a nonnegative scaling-plus-translation, and the origin. -/
theorem bounds_transform_enclosing_witness :
    (unitBox.transform scaleTransM).contains
      (scaleTransM.mulVec (Vec4q.point 0 0 0)) :=
  bounds_transform_enclosing_of_nonneg unitBox scaleTransM
    (Vec4q.point 0 0 0)
    (by norm_num [scaleTransM]) (by norm_num [scaleTransM])
    (by norm_num [scaleTransM]) (by norm_num [scaleTransM])
    (by norm_num [scaleTransM]) (by norm_num [scaleTransM])
    (by norm_num [scaleTransM]) (by norm_num [scaleTransM])
    (by norm_num [scaleTransM])
    (by norm_num [unitBox, Vec4q.point]) (by norm_num [unitBox, Vec4q.point])
    (by norm_num [Vec4q.point])
    (by norm_num [unitBox, SBounds.contains, Vec4q.point])

def localIntersectGroupMsg : String :=
  "local_intersect should never be called on a Group"

def localNormalAtGroupMsg : String :=
  "local_normal_at should never be called on a Group"

def normalAtGroupMsg : String :=
  "normal_at should never be called on a Group"

/-- `Group::local_intersect` (group.rs:41-46): unconditional `panic!`,
modelled as `Except.error` carrying the panic message. -/
def groupLocalIntersect (_ray : Rayq) : Except String (List Ixn) :=
  Except.error localIntersectGroupMsg

/-- `Group::local_normal_at` (group.rs:48-54): unconditional `panic!`. -/
def groupLocalNormalAt (_localPoint : Vec4q) : Except String Vec4q :=
  Except.error localNormalAtGroupMsg

/-- `Group::normal_at` (group.rs:60-62): unconditional `panic!`,
overriding the trait default. -/
def groupNormalAt (_worldPoint : Vec4q) : Except String Vec4q :=
  Except.error normalAtGroupMsg

/-- `Group::intersect` (group.rs:97-103): extend an accumulator with every
child's own (full, world-space) `intersect` result, in child order, with
no sort. Children are abstracted as their `intersect` functions over the
ray type `α`. -/
def groupIntersect {α : Type} (children : List (α → List Ixn))
    (ray : α) : List Ixn :=
  children.foldl (fun xs c => xs ++ c ray) []

lemma groupIntersect_foldl {α : Type} (ray : α)
    (children : List (α → List Ixn)) :
    ∀ acc : List Ixn,
      children.foldl (fun xs c => xs ++ c ray) acc =
        acc ++ (children.map fun c => c ray).flatten := by
  induction children with
  | nil => intro acc; simp
  | cons c cs ih =>
    intro acc
    simp [ih, List.append_assoc]

/-- C7: the local-space entry points `local_intersect`, `local_normal_at`
and the overridden `normal_at` on a `Group` fail loudly (panic, modelled
as `Except.error`) instead of returning an empty or zero result, while the
full `intersect` fans the unchanged ray out to every child's `intersect`
and concatenates the results in child order, unsorted. -/
theorem group_entry_points_spec :
    (∀ ray : Rayq, groupLocalIntersect ray =
      Except.error localIntersectGroupMsg) ∧
    (∀ p : Vec4q, groupLocalNormalAt p =
      Except.error localNormalAtGroupMsg) ∧
    (∀ p : Vec4q, groupNormalAt p = Except.error normalAtGroupMsg) ∧
    (∀ (α : Type) (children : List (α → List Ixn)) (ray : α),
      groupIntersect children ray = (children.map fun c => c ray).flatten) :=
  ⟨fun _ => rfl, fun _ => rfl, fun _ => rfl,
   fun _ children ray => groupIntersect_foldl ray children []⟩

/-- `Group::material` (group.rs:56-58): `self.children[0].material()` —
children are abstracted by their materials (type `μ`); the out-of-bounds
index on an empty group is a panic, modelled as `none`. -/
def groupMaterial {μ : Type} (childMaterials : List μ) : Option μ :=
  childMaterials.head?

/-- C10: `Group::material` on an empty group indexes `children[0]` out of
bounds and panics (`none` in the model), so a non-empty children list is a
precondition; on a non-empty group it returns the first child's
material. -/
theorem group_material_spec :
    (∀ μ : Type, groupMaterial ([] : List μ) = none) ∧
    (∀ (μ : Type) (m : μ) (ms : List μ),
      groupMaterial (m :: ms) = some m) :=
  ⟨fun _ => rfl, fun _ _ _ => rfl⟩

mutual
/-- A shape tree: `prim` covers the primitive shapes (Sphere, Plane, Cube,
Triangle, SmoothTriangle), `group` the composite (group.rs). Each node
stores its transform (source field name `transfom`) and the cached
inverse. Transforms are elements of an arbitrary (multiplicative) group
`G`, the structure the source uses of its invertible 4×4 matrices:
multiplication, `Matrix::inverse`, and the identity `Matrix::eye`. -/
inductive STree (G : Type) where
  | prim (transfom inverse : G)
  | group (transfom inverse : G) (children : STreeList G)
inductive STreeList (G : Type) where
  | nil
  | cons (head : STree G) (tail : STreeList G)
end

/-- `Shape::transform()`. -/
def STree.transfom {G : Type} : STree G → G
  | .prim t _ => t
  | .group t _ _ => t

/-- `Shape::inverse()`, the cached inverse field. -/
def STree.cachedInverse {G : Type} : STree G → G
  | .prim _ i => i
  | .group _ i _ => i

mutual
/-- `set_transformation`. For a primitive (sphere.rs:90-93, cube.rs:103-106
and identically plane/triangle/smooth_triangle): store the new transform
and recompute the cached inverse. For a `Group` (group.rs:72-91): compute
`delta = new_group * old_group.inverse()` (a fresh inversion of the stored
transform), rebase every child via the loop body (`setChild`), then store
the new transform and its freshly computed inverse. -/
def setTransformation {G : Type} [Group G] : STree G → G → STree G
  | .prim _ _, m => .prim m m⁻¹
  | .group t _ cs, m => .group m m⁻¹ (setChildren cs (m * t⁻¹))
termination_by s _ => (sizeOf s, 0)
/-- The `for child in &mut self.children` loop of `Group::set_transformation`. -/
def setChildren {G : Type} [Group G] : STreeList G → G → STreeList G
  | .nil, _ => .nil
  | .cons c cs, delta => .cons (setChild c delta) (setChildren cs delta)
termination_by cs _ => (sizeOf cs, 0)
/-- The loop body (group.rs:81-87): a child that downcasts to `Group`
receives `set_transformation(delta)` itself; any other child has its
stored transform premultiplied by `delta`. -/
def setChild {G : Type} [Group G] : STree G → G → STree G
  | .prim t _, delta => .prim (delta * t) (delta * t)⁻¹
  | .group t i cs, delta => setTransformation (.group t i cs) delta
termination_by c _ => (sizeOf c, 1)
end

/-- `Vec::push`. -/
def appendChild {G : Type} : STreeList G → STree G → STreeList G
  | .nil, s => .cons s .nil
  | .cons c cs, s => .cons c (appendChild cs s)

/-- `Group::add_child` (group.rs:27-33): compose the group's current
transform with the child's (`combined = self.transfom * shape.transform()`),
apply it to the child through the polymorphic `set_transformation`, and
push the child. (`add_child` exists only on `Group`; on a primitive the
model is the identity.) -/
def addChild {G : Type} [Group G] : STree G → STree G → STree G
  | .group t i cs, s => .group t i (appendChild cs (setTransformation s (t * s.transfom)))
  | .prim t i, _ => .prim t i

/-- `Group::new` (group.rs:19-26): identity transform and inverse, no
children. -/
def groupNew {G : Type} [Group G] : STree G := .group 1 1 .nil

mutual
/-- The effective world transforms carried by the primitive leaves, in
tree order. Group transforms do not contribute: `Group::intersect` fans
the untransformed ray out to the children, so only leaf transforms are
effective (group.rs:97-103). -/
def leafTransforms {G : Type} : STree G → List G
  | .prim t _ => [t]
  | .group _ _ cs => leafTransformsList cs
def leafTransformsList {G : Type} : STreeList G → List G
  | .nil => []
  | .cons c cs => leafTransforms c ++ leafTransformsList cs
end

mutual
/-- The cached-inverse invariant of the spec: on every node of the tree
the stored inverse equals the inverse of the stored transform. -/
def invOK {G : Type} [Group G] : STree G → Prop
  | .prim t i => i = t⁻¹
  | .group t i cs => i = t⁻¹ ∧ invOKList cs
def invOKList {G : Type} [Group G] : STreeList G → Prop
  | .nil => True
  | .cons c cs => invOK c ∧ invOKList cs
end

mutual
theorem invOK_setTransformation {G : Type} [Group G] (s : STree G)
    (m : G) : invOK (setTransformation s m) := by
  cases s with
  | prim t i => simp [setTransformation, invOK]
  | group t i cs =>
    simp only [setTransformation, invOK]
    exact ⟨by simp, invOKList_setChildren cs (m * t⁻¹)⟩
termination_by (sizeOf s, 0)
theorem invOKList_setChildren {G : Type} [Group G] (cs : STreeList G)
    (delta : G) : invOKList (setChildren cs delta) := by
  cases cs with
  | nil => simp [setChildren, invOKList]
  | cons c cs =>
    simp only [setChildren, invOKList]
    exact ⟨invOK_setChild c delta, invOKList_setChildren cs delta⟩
termination_by (sizeOf cs, 0)
theorem invOK_setChild {G : Type} [Group G] (c : STree G) (delta : G) :
    invOK (setChild c delta) := by
  cases c with
  | prim t i => simp [setChild, invOK]
  | group t i gcs =>
    simp only [setChild]
    exact invOK_setTransformation (.group t i gcs) delta
termination_by (sizeOf c, 1)
end

theorem invOKList_appendChild {G : Type} [Group G] (s : STree G)
    (hs : invOK s) :
    ∀ cs : STreeList G, invOKList cs → invOKList (appendChild cs s)
  | .nil, _ => by
    simp only [appendChild, invOKList]
    exact ⟨hs, trivial⟩
  | .cons c cs, h => by
    simp only [appendChild, invOKList] at h ⊢
    exact ⟨h.1, invOKList_appendChild s hs cs h.2⟩

/-- C8: after any `set_transformation` — including the recursive rebasing
`Group::set_transformation` and `Group::add_child` perform on children —
every node's cached inverse equals the inverse of its current transform:
the mutators re-establish the invariant unconditionally, `add_child`
preserves it for the rest of the tree, and a fresh group satisfies it. -/
theorem cached_inverse_invariant :
    (∀ (G : Type) [Group G] (s : STree G) (m : G),
      invOK (setTransformation s m)) ∧
    (∀ (G : Type) [Group G] (g s : STree G),
      invOK g → invOK (addChild g s)) ∧
    (∀ (G : Type) [Group G], invOK (groupNew : STree G)) := by
  refine ⟨fun G _ s m => invOK_setTransformation s m, ?_, ?_⟩
  · intro G _ g s hg
    cases g with
    | prim t i => simpa [addChild] using hg
    | group t i cs =>
      simp only [invOK] at hg
      simp only [addChild, invOK]
      exact ⟨hg.1, invOKList_appendChild _
        (invOK_setTransformation s (t * s.transfom)) cs hg.2⟩
  · intro G _
    simp only [groupNew, invOK, invOKList]
    exact ⟨inv_one.symm, trivial⟩

/-- C8 witness: `cached_inverse_invariant` applied over the concrete group
`Multiplicative ℤ` — adding a primitive child with transform `ofAdd 1` to
a fresh group. -/
theorem cached_inverse_invariant_witness :
    invOK (addChild (groupNew : STree (Multiplicative ℤ))
      (.prim (Multiplicative.ofAdd 1) 1)) :=
  cached_inverse_invariant.2.1 (Multiplicative ℤ) groupNew
    (.prim (Multiplicative.ofAdd 1) 1)
    (cached_inverse_invariant.2.2 (Multiplicative ℤ))

/-- The translation-by-one transform in the concrete transform group
`Multiplicative ℤ` (transforms need only their group structure). -/
def tEx : Multiplicative ℤ := Multiplicative.ofAdd 1

/-- A group with transform `tEx` holding one primitive child whose stored
(fully composed) transform is `tEx`, exactly as `add_child` produces it:
`g2 = Group::new(); g2.set_transformation(T); g2.add_child(prim)`. -/
def g2Ex : STree (Multiplicative ℤ) :=
  addChild (setTransformation groupNew tEx) (.prim 1 1)

/-- An outer identity-transform group holding `g2Ex` as its only child:
`g1 = Group::new(); g1.add_child(g2)`. -/
def g1Ex : STree (Multiplicative ℤ) := addChild groupNew g2Ex

/-- C1 (refuted — code bug): re-transforming a group does not keep nested
descendants' effective transforms correct. `g1Ex` has identity transform
and its nested group's leaf carries the effective transform `tEx`; calling
`set_transformation` with the group's own current transform (the identity
— an update equivalent to the current one) rewrites the leaf's transform
to the identity, because the nested-group branch of
`Group::set_transformation` passes `delta` alone to the child group,
discarding the child's previously composed transform
(group.rs:81-82). -/
theorem group_retransform_nested_bug :
    g1Ex.transfom = (1 : Multiplicative ℤ) ∧
    leafTransforms g1Ex = [tEx] ∧
    leafTransforms (setTransformation g1Ex (1 : Multiplicative ℤ)) =
      [(1 : Multiplicative ℤ)] ∧
    tEx ≠ (1 : Multiplicative ℤ) := by
  refine ⟨?_, ?_, ?_, by decide⟩
  · simp [g1Ex, g2Ex, groupNew, addChild, setTransformation, setChildren,
      setChild, appendChild, STree.transfom]
  · simp [g1Ex, g2Ex, groupNew, addChild, setTransformation, setChildren,
      setChild, appendChild, STree.transfom, leafTransforms,
      leafTransformsList]
  · simp [g1Ex, g2Ex, groupNew, addChild, setTransformation, setChildren,
      setChild, appendChild, STree.transfom, leafTransforms,
      leafTransformsList]

end RT
